import Mathlib

/-!
# Verification of the field-masking pipeline (`src/tokenizer_lambda.py`)

Shallow embedding of the tokenization Lambda. Python strings are modelled as
`List Char` (a Python `str` is a sequence of Unicode code points), bytes as
`Nat` below 256. The external collaborators (S3 fetches, the event shape and
the `eval` of the metadata payload) are modelled as parameters: the handler is
a function of the triggering metadata key, the field list produced by
evaluating the metadata payload, and the decoded text of the raw dataset.
The single `s3.put_object` call (line 55) is modelled as the list of store
operations the invocation performs.
-/

/-- Python strings: sequences of Unicode code points. -/
abbrev Str := List Char

deriving instance DecidableEq for Except

/-! ## `base64.b64encode` / `base64.b64decode` (line 51)

Standard RFC 4648 base64 over byte lists, as used by `base64.b64encode` on
the UTF-8 bytes of a field value. -/

/-- The base64 alphabet. -/
def b64Alphabet : Str :=
  "ABCDEFGHIJKLMNOPQRSTUVWXYZabcdefghijklmnopqrstuvwxyz0123456789+/".data

/-- Character for a sextet value (values ≥ 64 do not occur). -/
def b64Char (n : Nat) : Char := b64Alphabet.getD n '?'

/-- Sextet value of a base64 character. -/
def b64CharDec (c : Char) : Option Nat := b64Alphabet.findIdx? (fun a => a = c)

/-- base64-encode a byte list, three bytes to four characters, `=`-padded. -/
def encodeChunks : List Nat → Str
  | [] => []
  | [a] => [b64Char (a / 4), b64Char (a % 4 * 16), '=', '=']
  | [a, b] => [b64Char (a / 4), b64Char (a % 4 * 16 + b / 16), b64Char (b % 16 * 4), '=']
  | a :: b :: c :: rest =>
    b64Char (a / 4) :: b64Char (a % 4 * 16 + b / 16) :: b64Char (b % 16 * 4 + c / 64) ::
      b64Char (c % 64) :: encodeChunks rest

/-- base64-decode four characters to three bytes, honouring `=` padding
(`none` on any malformed input). -/
def decodeChunks : Str → Option (List Nat)
  | [] => some []
  | c1 :: c2 :: c3 :: c4 :: rest =>
    match b64CharDec c1, b64CharDec c2 with
    | some a, some b =>
      if c3 = '=' then
        if c4 = '=' ∧ rest = [] then some [a * 4 + b / 16] else none
      else
        match b64CharDec c3 with
        | some c =>
          if c4 = '=' then
            if rest = [] then some [a * 4 + b / 16, b % 16 * 16 + c / 4] else none
          else
            match b64CharDec c4 with
            | some e =>
              (decodeChunks rest).map
                (fun t => (a * 4 + b / 16) :: (b % 16 * 16 + c / 4) :: (c % 4 * 64 + e) :: t)
            | none => none
        | none => none
    | _, _ => none
  | _ => none

/-! ## UTF-8 (`str.encode()` / decoding, lines 27, 33, 51) -/

/-- UTF-8 encoding of a single code point. -/
def utf8EncodeChar (c : Char) : List Nat :=
  let n := c.toNat
  if n < 0x80 then [n]
  else if n < 0x800 then [0xC0 + n / 64, 0x80 + n % 64]
  else if n < 0x10000 then [0xE0 + n / 4096, 0x80 + n / 64 % 64, 0x80 + n % 64]
  else [0xF0 + n / 262144, 0x80 + n / 4096 % 64, 0x80 + n / 64 % 64, 0x80 + n % 64]

/-- UTF-8 encoding of a string. -/
def utf8Encode (s : Str) : List Nat := (s.map utf8EncodeChar).flatten

/-- One step of a validating UTF-8 decoder: the first code point and the
remaining bytes (rejects overlong forms, surrogates and out-of-range code
points). -/
def utf8DecodeStep : List Nat → Option (Char × List Nat)
  | [] => none
  | b :: bs =>
    if b < 0x80 then some (Char.ofNat b, bs)
    else if b < 0xC2 then none
    else if b < 0xE0 then
      match bs with
      | b1 :: rest =>
        if 0x80 ≤ b1 ∧ b1 < 0xC0 then
          some (Char.ofNat ((b - 0xC0) * 64 + (b1 - 0x80)), rest)
        else none
      | _ => none
    else if b < 0xF0 then
      match bs with
      | b1 :: b2 :: rest =>
        if 0x80 ≤ b1 ∧ b1 < 0xC0 ∧ 0x80 ≤ b2 ∧ b2 < 0xC0 then
          if (b - 0xE0) * 4096 + (b1 - 0x80) * 64 + (b2 - 0x80) < 0x800 ∨
              (0xD800 ≤ (b - 0xE0) * 4096 + (b1 - 0x80) * 64 + (b2 - 0x80) ∧
                (b - 0xE0) * 4096 + (b1 - 0x80) * 64 + (b2 - 0x80) < 0xE000) then none
          else some (Char.ofNat ((b - 0xE0) * 4096 + (b1 - 0x80) * 64 + (b2 - 0x80)), rest)
        else none
      | _ => none
    else if b < 0xF5 then
      match bs with
      | b1 :: b2 :: b3 :: rest =>
        if 0x80 ≤ b1 ∧ b1 < 0xC0 ∧ 0x80 ≤ b2 ∧ b2 < 0xC0 ∧ 0x80 ≤ b3 ∧ b3 < 0xC0 then
          if (b - 0xF0) * 262144 + (b1 - 0x80) * 4096 + (b2 - 0x80) * 64 + (b3 - 0x80) <
              0x10000 ∨
              0x110000 ≤
                (b - 0xF0) * 262144 + (b1 - 0x80) * 4096 + (b2 - 0x80) * 64 + (b3 - 0x80) then
            none
          else
            some
              (Char.ofNat
                ((b - 0xF0) * 262144 + (b1 - 0x80) * 4096 + (b2 - 0x80) * 64 + (b3 - 0x80)),
                rest)
        else none
      | _ => none
    else none

/-- Fuelled decoding loop; each step consumes at least one byte, so fuel
equal to the byte count always suffices. -/
def utf8DecodeF : Nat → List Nat → Option Str
  | _, [] => some []
  | 0, _ :: _ => none
  | fuel + 1, b :: bs =>
    match utf8DecodeStep (b :: bs) with
    | some (c, rest) => (utf8DecodeF fuel rest).map (fun s => c :: s)
    | none => none

/-- Validating UTF-8 decoder. -/
def utf8Decode (l : List Nat) : Option Str := utf8DecodeF l.length l

/-- The masking transformation of line 51:
`base64.b64encode(row[field].encode()).decode()`. -/
def encStr (v : Str) : Str := encodeChunks (utf8Encode v)

/-- The inverse direction: base64-decode, then UTF-8 decode. -/
def decStr (s : Str) : Option Str := (decodeChunks s).bind utf8Decode

/-! ## Path Resolver (lines 17–19)

`filename_base = os.path.basename(metadata_key).replace('_pii_fields.json', '')`
followed by the two f-strings. `str.replace` removes every (non-overlapping,
left-to-right) occurrence of the pattern and never fails. -/

/-- The fixed metadata suffix of line 17. -/
def piiSuffix : Str := "_pii_fields.json".data

/-- `os.path.basename`: everything after the last `/`. -/
def basename (s : Str) : Str :=
  s.foldl (fun acc c => if c = '/' then [] else acc ++ [c]) []

/-- Worker for `str.replace(piiSuffix, '')`: scans left to right; on a match
the next `piiSuffix.length - 1` characters are skipped (`k` counts characters
still to skip). -/
def stripGo : Nat → Str → Str
  | _, [] => []
  | 0, c :: s =>
    if piiSuffix.isPrefixOf (c :: s) then stripGo (piiSuffix.length - 1) s
    else c :: stripGo 0 s
  | k + 1, _ :: s => stripGo k s

/-- `basename(metadata_key).replace('_pii_fields.json', '')`. -/
def stripPii (s : Str) : Str := stripGo 0 s

/-- `raw_key = f"raw/{filename_base}.csv"` (line 18). -/
def rawKey (metadataKey : Str) : Str :=
  "raw/".data ++ stripPii (basename metadataKey) ++ ".csv".data

/-- `output_key = f"tokenized/{filename_base}_tokenized.csv"` (line 19). -/
def outputKey (metadataKey : Str) : Str :=
  "tokenized/".data ++ stripPii (basename metadataKey) ++ "_tokenized.csv".data

/-- Does `pat` occur as a contiguous substring? (Used to state when the
suffix occurs exactly once, at the end.) -/
def occursIn (pat : Str) : Str → Bool
  | [] => pat.isEmpty
  | c :: s => pat.isPrefixOf (c :: s) || occursIn pat s

/-! ## `str.splitlines` (line 37) -/

/-- The line-break characters recognised by `str.splitlines`. -/
def pyIsLineBreak (c : Char) : Bool :=
  c = '\n' ∨ c = '\r' ∨ c.toNat = 0x0B ∨ c.toNat = 0x0C ∨ c.toNat = 0x1C ∨
    c.toNat = 0x1D ∨ c.toNat = 0x1E ∨ c.toNat = 0x85 ∨ c.toNat = 0x2028 ∨
    c.toNat = 0x2029

/-- `str.splitlines()`: splits at every line break, `\r\n` counting as one. -/
def pySplitlines : Str → List Str
  | [] => []
  | '\r' :: '\n' :: s => [] :: pySplitlines s
  | c :: s =>
    if pyIsLineBreak c then [] :: pySplitlines s
    else
      match pySplitlines s with
      | [] => [[c]]
      | l :: ls => (c :: l) :: ls

/-! ## Dialect Detector (lines 36–38)

`csv.Sniffer().sniff(raw_csv.splitlines()[0])`. The sample is a single line
(no newline characters). For such samples without quote characters the
quote-guessing stage of `Sniffer.sniff` finds no matches and the result is
decided by `Sniffer._guess_delimiter`, which over a one-line sample reduces
to: the candidates are the ASCII characters (code < 127) occurring in the
line; a sole candidate is returned directly; otherwise the first of the
preferred delimiters `[',', '\t', ';', ' ', ':']` present among the
candidates wins; otherwise the candidate with the greatest
(occurrence count, code point) wins; no candidate at all raises
`csv.Error("Could not determine delimiter")`. (At every concrete sample the
theorems below use, this agrees with the full `Sniffer.sniff` including its
quote-guessing stage.) -/

/-- ASCII characters (code < 127) occurring in the sample line, the delimiter
candidates of `Sniffer._guess_delimiter` for a one-line sample. -/
def asciiCandidates (l : Str) : List Char :=
  (List.range 127).filterMap
    (fun n => if 0 < l.count (Char.ofNat n) then some (Char.ofNat n) else none)

/-- `Sniffer.preferred`. -/
def preferredDelims : List Char := [',', '\t', ';', ' ', ':']

/-- Candidate with the greatest (count in `l`, code point), Python's
`items.sort(); items[-1]`. -/
def maxCandidate (l : Str) (c : Char) (cs : List Char) : Char :=
  cs.foldl
    (fun a b =>
      if l.count a < l.count b ∨ (l.count a = l.count b ∧ a.toNat < b.toNat) then b else a)
    c

/-- Delimiter detection on the first line; `none` models the
`csv.Error` raised by `sniff` when no delimiter is found. -/
def sniffLine (l : Str) : Option Char :=
  match asciiCandidates l with
  | [] => none
  | [c] => some c
  | c :: cs =>
    match preferredDelims.find? (fun p => (c :: cs).contains p) with
    | some p => some p
    | none => some (maxCandidate l c cs)

/-! ## CSV reading and writing (lines 44–46, 52)

State machine of the `_csv` reader with the source's dialect: delimiter `d`,
`quotechar '"'`, `doublequote=True`, no escape character, `strict=False`,
`skipinitialspace=False`. The input is consumed character by character; the
states mirror the C reader's `START_RECORD`, `START_FIELD`, `IN_FIELD`,
`IN_QUOTED_FIELD`, `QUOTE_IN_QUOTED_FIELD` and `EAT_CRNL`. A `\n` always ends
the reader's current chunk, after which the record is emitted; a `\r` not
followed by `\r*(\n|end)` raises
`csv.Error("new-line character seen in unquoted field ...")`. -/

/-- Errors the invocation can abort with, by Python exception:
`indexErr` = `IndexError` (`splitlines()[0]` on an empty dataset),
`sniffErr` = `csv.Error` from `Sniffer.sniff`,
`newlineErr` = `csv.Error` from the reader (stray `\r`),
`valueErr` = `ValueError` from `DictWriter` (row longer than the header),
`typeErr` = `TypeError` from `writeheader` when the dataset has no rows. -/
inductive PyErr where
  | indexErr | sniffErr | newlineErr | valueErr | typeErr
deriving DecidableEq

/-- Reader states. -/
inductive CState where
  | sr | sf | pf | qf | aq | cr
deriving DecidableEq

/-- The reader's state machine: `csvGo d input state field record`.
`field` is the field being accumulated, `record` the fields of the record
being accumulated. -/
def csvGo (d : Char) : Str → CState → Str → List Str → Except PyErr (List (List Str))
  | [], .sr, _, _ => .ok []
  | [], .sf, fld, rec => .ok [rec ++ [fld]]
  | [], .pf, fld, rec => .ok [rec ++ [fld]]
  | [], .qf, fld, rec => .ok [rec ++ [fld]]
  | [], .aq, fld, rec => .ok [rec ++ [fld]]
  | [], .cr, _, rec => .ok [rec]
  | c :: s, .sr, _, _ =>
    if c = '\n' then (csvGo d s .sr [] []).map (fun rs => [] :: rs)
    else if c = '\r' then csvGo d s .cr [] []
    else if c = '"' then csvGo d s .qf [] []
    else if c = d then csvGo d s .sf [] [[]]
    else csvGo d s .pf [c] []
  | c :: s, .sf, _, rec =>
    if c = '"' then csvGo d s .qf [] rec
    else if c = d then csvGo d s .sf [] (rec ++ [[]])
    else if c = '\n' then (csvGo d s .sr [] []).map (fun rs => (rec ++ [[]]) :: rs)
    else if c = '\r' then csvGo d s .cr [] (rec ++ [[]])
    else csvGo d s .pf [c] rec
  | c :: s, .pf, fld, rec =>
    if c = d then csvGo d s .sf [] (rec ++ [fld])
    else if c = '\n' then (csvGo d s .sr [] []).map (fun rs => (rec ++ [fld]) :: rs)
    else if c = '\r' then csvGo d s .cr [] (rec ++ [fld])
    else csvGo d s .pf (fld ++ [c]) rec
  | c :: s, .qf, fld, rec =>
    if c = '"' then csvGo d s .aq fld rec
    else csvGo d s .qf (fld ++ [c]) rec
  | c :: s, .aq, fld, rec =>
    if c = '"' then csvGo d s .qf (fld ++ ['"']) rec
    else if c = d then csvGo d s .sf [] (rec ++ [fld])
    else if c = '\n' then (csvGo d s .sr [] []).map (fun rs => (rec ++ [fld]) :: rs)
    else if c = '\r' then csvGo d s .cr [] (rec ++ [fld])
    else csvGo d s .pf (fld ++ [c]) rec
  | c :: s, .cr, _, rec =>
    if c = '\n' then (csvGo d s .sr [] []).map (fun rs => rec :: rs)
    else if c = '\r' then csvGo d s .cr [] rec
    else .error .newlineErr

/-- Parse the whole dataset text into records, as `csv.reader` on
`io.StringIO(raw_csv)` does. -/
def csvParse (d : Char) (s : Str) : Except PyErr (List (List Str)) :=
  csvGo d s .sr [] []

/-- Split a quote-free line at a delimiter (what the reader does to a line
containing no quote, CR or LF characters). -/
def splitOnChar (d : Char) : Str → List Str
  | [] => [[]]
  | c :: s =>
    match splitOnChar d s with
    | [] => [[c]]
    | f :: fs => if c = d then [] :: f :: fs else (c :: f) :: fs

/-- Prepend an already-accumulated field prefix to the first part of a
split. -/
def consHead (fld : Str) : List Str → List Str
  | [] => [fld]
  | f :: fs => (fld ++ f) :: fs

/-! ### Rows as Python dicts (`csv.DictReader`, line 44)

A row is an insertion-ordered string-keyed dict plus the optional `None`
(restkey) entry that `DictReader` adds when a row is longer than the header. -/

/-- Insertion-ordered dict over string keys. -/
abbrev Cells := List (Str × Option Str)

/-- `d[k]` lookup: `none` = key absent, `some v` = present with value `v`
(`v = none` models Python `None`, the reader's `restval`). -/
def dictGet? (k : Str) (d : Cells) : Option (Option Str) :=
  (d.find? (fun p => p.1 = k)).map (fun p => p.2)

/-- `d[k] = v`: overwrites in place, appends if absent. -/
def dictSet (k : Str) (v : Option Str) : Cells → Cells
  | [] => [(k, v)]
  | p :: d => if p.1 = k then (k, v) :: d else p :: dictSet k v d

/-- A `DictReader` row: the string-keyed cells plus the restkey entry. -/
structure PyRow where
  cells : Cells
  extra : Option (List Str)
deriving DecidableEq

/-- `DictReader.__next__`: `dict(zip(fieldnames, row))`, padding missing
columns with `None`, collecting surplus values under the restkey. -/
def mkRow (fns : List Str) (row : List Str) : PyRow :=
  let base := (fns.zip row).foldl (fun d p => dictSet p.1 (some p.2) d) []
  let padded :=
    if row.length < fns.length then
      (fns.drop row.length).foldl (fun d k => dictSet k none d) base
    else base
  { cells := padded
    extra := if fns.length < row.length then some (row.drop fns.length) else none }

/-! ### The masking loop (lines 48–52) -/

/-- One iteration of the inner loop (lines 49–51): if `field in row` and
`row[field]` is truthy (a non-empty string), replace it by its encoding. -/
def applyField (r : PyRow) (f : Str) : PyRow :=
  match dictGet? f r.cells with
  | some (some v) =>
    if v = [] then r else { r with cells := dictSet f (some (encStr v)) r.cells }
  | _ => r

/-- The inner loop over the parsed field list. -/
def applyPii (pii : List Str) (r : PyRow) : PyRow := pii.foldl applyField r

/-! ### `csv.DictWriter` (lines 45–46, 52) -/

/-- Does a field need quoting under `QUOTE_MINIMAL`? -/
def needsQuote (d : Char) (f : Str) : Bool :=
  f.any (fun c => c = d ∨ c = '"' ∨ c = '\r' ∨ c = '\n')

/-- Render one cell (`none` is Python `None`, written as the empty string). -/
def renderField (d : Char) (v : Option Str) : Str :=
  match v with
  | none => []
  | some f =>
    if needsQuote d f then
      '"' :: (f.map (fun c => if c = '"' then ['"', '"'] else [c])).flatten ++ ['"']
    else f

/-- Fields joined by the delimiter. -/
def joinSep (sep : Str) : List Str → Str
  | [] => []
  | [f] => f
  | f :: fs => f ++ sep ++ joinSep sep fs

/-- Render a record: fields joined by the delimiter, `\r\n`-terminated; a
record consisting of a single empty field is written `""` (the writer quotes
it to keep the row distinguishable from a blank line). -/
def renderRecord (d : Char) (vs : List (Option Str)) : Str :=
  if vs = [some []] ∨ vs = [none] then '"' :: '"' :: ['\r', '\n']
  else joinSep [d] (vs.map (renderField d)) ++ ['\r', '\n']

/-- `DictWriter.writerow` on a reader row: the values of the header columns in
header order (`rowdict.get(key, restval='')`). -/
def renderFromRow (d : Char) (fns : List Str) (r : PyRow) : Str :=
  renderRecord d
    (fns.map (fun k =>
      match dictGet? k r.cells with
      | some v => v
      | none => some []))

/-- Lines 48–52 for one row: mask, then `writer.writerow`; a row longer than
the header has the restkey entry, on which `DictWriter` raises
`ValueError("dict contains fields not in fieldnames: None")`. -/
def processRow (d : Char) (fns : List Str) (pii : List Str) (row : List Str) :
    Except PyErr Str :=
  if (applyPii pii (mkRow fns row)).extra.isSome then .error .valueErr
  else .ok (renderFromRow d fns (applyPii pii (mkRow fns row)))

/-- Process a list sequentially, propagating the first exception — the
`for row in reader` loop's control flow. -/
def mapME {α β : Type} (f : α → Except PyErr β) : List α → Except PyErr (List β)
  | [] => .ok []
  | a :: t =>
    match f a with
    | .error e => .error e
    | .ok b =>
      match mapME f t with
      | .error e => .error e
      | .ok bs => .ok (b :: bs)

/-! ## Pipeline Orchestrator (lines 9–56) -/

/-- Lines 33–52: the whole transformation from the decoded raw-dataset text
and the evaluated field list to the output text. `DictReader` skips empty
records (blank lines) in the data rows. -/
def runPipeline (pii : List Str) (raw : Str) : Except PyErr Str :=
  match (pySplitlines raw).head? with
  | none => .error .indexErr
  | some l0 =>
    match sniffLine l0 with
    | none => .error .sniffErr
    | some d =>
      match csvParse d raw with
      | .error e => .error e
      | .ok [] => .error .typeErr
      | .ok (fns :: rest) =>
        match mapME (processRow d fns pii) (rest.filter (fun r => !r.isEmpty)) with
        | .error e => .error e
        | .ok parts => .ok (renderRecord d (fns.map some) ++ parts.flatten)

/-- The handler (lines 9–56): result of the invocation, together with the
list of `s3.put_object` store operations it performed (key, body).
An exception anywhere aborts before the single `put_object` of line 55. -/
def lambda_handler (metadataKey : Str) (pii : List Str) (raw : Str) :
    Except PyErr Unit × List (Str × Str) :=
  match runPipeline pii raw with
  | .ok body => (.ok (), [(outputKey metadataKey, body)])
  | .error e => (.error e, [])

/-! ## General lemmas: the encoding round-trip, lengths, ASCII safety -/

theorem b64CharDec_b64Char : ∀ n, n < 64 → b64CharDec (b64Char n) = some n := by decide

theorem b64Char_ne_eq (n : Nat) : b64Char n ≠ '=' := by
  by_cases h : n < 64
  · exact (by decide : ∀ m, m < 64 → b64Char m ≠ '=') n h
  · unfold b64Char
    rw [List.getD_eq_default]
    · decide
    · have : b64Alphabet.length = 64 := by decide
      omega

theorem decodeChunks_encodeChunks :
    ∀ bs : List Nat, (∀ x ∈ bs, x < 256) → decodeChunks (encodeChunks bs) = some bs := by
  intro bs h
  induction bs using encodeChunks.induct with
  | case1 => rfl
  | case2 a =>
    have ha : a < 256 := h a (by simp)
    have e1 := b64CharDec_b64Char (a / 4) (by omega)
    have e2 := b64CharDec_b64Char (a % 4 * 16) (by omega)
    simp [encodeChunks, decodeChunks, e1, e2]
    omega
  | case3 a b =>
    have ha : a < 256 := h a (by simp)
    have hb : b < 256 := h b (by simp)
    have e1 := b64CharDec_b64Char (a / 4) (by omega)
    have e2 := b64CharDec_b64Char (a % 4 * 16 + b / 16) (by omega)
    have e3 := b64CharDec_b64Char (b % 16 * 4) (by omega)
    simp [encodeChunks, decodeChunks, e1, e2, e3, b64Char_ne_eq]
    omega
  | case4 a b c rest ih =>
    have ha : a < 256 := h a (by simp)
    have hb : b < 256 := h b (by simp)
    have hc : c < 256 := h c (by simp)
    have e1 := b64CharDec_b64Char (a / 4) (by omega)
    have e2 := b64CharDec_b64Char (a % 4 * 16 + b / 16) (by omega)
    have e3 := b64CharDec_b64Char (b % 16 * 4 + c / 64) (by omega)
    have e4 := b64CharDec_b64Char (c % 64) (by omega)
    have ih' := ih (fun x hx => h x (by simp [hx]))
    simp [encodeChunks, decodeChunks, e1, e2, e3, e4, b64Char_ne_eq, ih']
    constructor
    · omega
    constructor
    · omega
    · omega

theorem utf8DecodeStep_encodeChar (c : Char) (rest : List Nat) :
    utf8DecodeStep (utf8EncodeChar c ++ rest) = some (c, rest) := by
  have hval : c.toNat < 0xD800 ∨ (0xDFFF < c.toNat ∧ c.toNat < 0x110000) := c.valid
  have hofn : Char.ofNat c.toNat = c := Char.ofNat_toNat c
  simp only [utf8EncodeChar]
  by_cases h1 : c.toNat < 0x80
  · rw [if_pos h1]
    simp only [List.cons_append, List.nil_append, utf8DecodeStep]
    rw [if_pos h1, hofn]
  · rw [if_neg h1]
    by_cases h2 : c.toNat < 0x800
    · rw [if_pos h2]
      simp only [List.cons_append, List.nil_append, utf8DecodeStep]
      rw [if_neg (by omega), if_neg (by omega), if_pos (by omega), if_pos (by omega)]
      have harith : (0xC0 + c.toNat / 64 - 0xC0) * 64 + (0x80 + c.toNat % 64 - 0x80) =
          c.toNat := by omega
      rw [harith, hofn]
    · rw [if_neg h2]
      by_cases h3 : c.toNat < 0x10000
      · rw [if_pos h3]
        simp only [List.cons_append, List.nil_append, utf8DecodeStep]
        rw [if_neg (by omega), if_neg (by omega), if_neg (by omega), if_pos (by omega),
          if_pos (by omega), if_neg (by omega)]
        have harith : (0xE0 + c.toNat / 4096 - 0xE0) * 4096 +
            (0x80 + c.toNat / 64 % 64 - 0x80) * 64 + (0x80 + c.toNat % 64 - 0x80) =
            c.toNat := by omega
        rw [harith, hofn]
      · rw [if_neg h3]
        simp only [List.cons_append, List.nil_append, utf8DecodeStep]
        rw [if_neg (by omega), if_neg (by omega), if_neg (by omega), if_neg (by omega),
          if_pos (by omega), if_pos (by omega), if_neg (by omega)]
        have harith : (0xF0 + c.toNat / 262144 - 0xF0) * 262144 +
            (0x80 + c.toNat / 4096 % 64 - 0x80) * 4096 +
            (0x80 + c.toNat / 64 % 64 - 0x80) * 64 + (0x80 + c.toNat % 64 - 0x80) =
            c.toNat := by omega
        rw [harith, hofn]

theorem utf8EncodeChar_ne_nil (c : Char) : utf8EncodeChar c ≠ [] := by
  simp only [utf8EncodeChar]
  split <;> [skip; split] <;> simp
  split <;> simp

theorem utf8DecodeF_utf8Encode (s : Str) :
    ∀ fuel, (utf8Encode s).length ≤ fuel → utf8DecodeF fuel (utf8Encode s) = some s := by
  induction s with
  | nil =>
    intro fuel _
    show utf8DecodeF fuel [] = some []
    cases fuel <;> rfl
  | cons c s ih =>
    intro fuel hfuel
    have henc : utf8Encode (c :: s) = utf8EncodeChar c ++ utf8Encode s := by
      simp [utf8Encode]
    obtain ⟨b, t, hbt⟩ :=
      List.exists_cons_of_ne_nil
        (show utf8Encode (c :: s) ≠ [] by
          rw [henc]
          exact fun h => utf8EncodeChar_ne_nil c (List.append_eq_nil.mp h).1)
    have hlen1 : 1 ≤ (utf8Encode (c :: s)).length := by rw [hbt]; simp
    match fuel with
    | 0 => omega
    | fuel + 1 =>
      rw [hbt]
      show (match utf8DecodeStep (b :: t) with
        | some (c, rest) => (utf8DecodeF fuel rest).map (fun s => c :: s)
        | none => none) = some (c :: s)
      rw [← hbt, henc, utf8DecodeStep_encodeChar]
      show (utf8DecodeF fuel (utf8Encode s)).map (fun t => c :: t) = some (c :: s)
      have hchar : 1 ≤ (utf8EncodeChar c).length :=
        List.length_pos.mpr (utf8EncodeChar_ne_nil c)
      have : (utf8Encode s).length ≤ fuel := by
        rw [henc] at hfuel
        simp only [List.length_append] at hfuel
        omega
      rw [ih fuel this]
      rfl

theorem utf8Decode_utf8Encode (s : Str) : utf8Decode (utf8Encode s) = some s :=
  utf8DecodeF_utf8Encode s _ (Nat.le_refl _)

theorem utf8EncodeChar_lt_256 (c : Char) : ∀ b ∈ utf8EncodeChar c, b < 256 := by
  have hval : c.toNat < 0xD800 ∨ (0xDFFF < c.toNat ∧ c.toNat < 0x110000) := c.valid
  intro b hb
  simp only [utf8EncodeChar] at hb
  by_cases h1 : c.toNat < 0x80
  · rw [if_pos h1] at hb; simp at hb; omega
  · rw [if_neg h1] at hb
    by_cases h2 : c.toNat < 0x800
    · rw [if_pos h2] at hb; simp at hb; rcases hb with h | h <;> omega
    · rw [if_neg h2] at hb
      by_cases h3 : c.toNat < 0x10000
      · rw [if_pos h3] at hb; simp at hb; rcases hb with h | h | h <;> omega
      · rw [if_neg h3] at hb; simp at hb; rcases hb with h | h | h | h <;> omega

theorem utf8Encode_lt_256 (s : Str) : ∀ b ∈ utf8Encode s, b < 256 := by
  intro b hb
  simp only [utf8Encode, List.mem_flatten, List.mem_map] at hb
  obtain ⟨l, ⟨c, _, rfl⟩, hbl⟩ := hb
  exact utf8EncodeChar_lt_256 c b hbl

/-- The round-trip law for the value encoding of line 51. -/
theorem decStr_encStr (v : Str) : decStr (encStr v) = some v := by
  unfold decStr encStr
  rw [decodeChunks_encodeChunks _ (utf8Encode_lt_256 v)]
  exact utf8Decode_utf8Encode v

theorem b64Char_toNat_lt (n : Nat) : (b64Char n).toNat < 128 := by
  by_cases h : n < 64
  · exact (by decide : ∀ m, m < 64 → (b64Char m).toNat < 128) n h
  · unfold b64Char
    rw [List.getD_eq_default]
    · decide
    · have : b64Alphabet.length = 64 := by decide
      omega

theorem encodeChunks_ascii (bs : List Nat) : ∀ c ∈ encodeChunks bs, c.toNat < 128 := by
  induction bs using encodeChunks.induct with
  | case1 => intro c hc; simp [encodeChunks] at hc
  | case2 a =>
    intro c hc
    simp only [encodeChunks, List.mem_cons, List.not_mem_nil, or_false] at hc
    rcases hc with h | h | h | h <;> subst h <;> first | exact b64Char_toNat_lt _ | decide
  | case3 a b =>
    intro c hc
    simp only [encodeChunks, List.mem_cons, List.not_mem_nil, or_false] at hc
    rcases hc with h | h | h | h <;> subst h <;> first | exact b64Char_toNat_lt _ | decide
  | case4 a b c' rest ih =>
    intro c hc
    simp only [encodeChunks, List.mem_cons] at hc
    rcases hc with h | h | h | h | h
    · subst h; exact b64Char_toNat_lt _
    · subst h; exact b64Char_toNat_lt _
    · subst h; exact b64Char_toNat_lt _
    · subst h; exact b64Char_toNat_lt _
    · exact ih c h

theorem encodeChunks_length (bs : List Nat) :
    (encodeChunks bs).length = 4 * ((bs.length + 2) / 3) := by
  induction bs using encodeChunks.induct with
  | case1 => rfl
  | case2 a => simp [encodeChunks]
  | case3 a b => simp [encodeChunks]
  | case4 a b c rest ih =>
    simp only [encodeChunks, List.length_cons, ih]
    omega

theorem utf8Encode_length_ge (s : Str) : s.length ≤ (utf8Encode s).length := by
  induction s with
  | nil => simp [utf8Encode]
  | cons c s ih =>
    have henc : utf8Encode (c :: s) = utf8EncodeChar c ++ utf8Encode s := by simp [utf8Encode]
    have hchar : 1 ≤ (utf8EncodeChar c).length := List.length_pos.mpr (utf8EncodeChar_ne_nil c)
    rw [henc]
    simp only [List.length_append, List.length_cons]
    omega

theorem encStr_length_gt (v : Str) (h : v ≠ []) : v.length < (encStr v).length := by
  have h1 : 1 ≤ v.length := List.length_pos.mpr h
  have h2 := utf8Encode_length_ge v
  unfold encStr
  rw [encodeChunks_length]
  omega

theorem encStr_ne_nil (v : Str) (h : v ≠ []) : encStr v ≠ [] := by
  intro habs
  have := encStr_length_gt v h
  rw [habs] at this
  simp at this

theorem encStr_ne_self (v : Str) (h : v ≠ []) : encStr v ≠ v := by
  intro habs
  have := encStr_length_gt v h
  rw [habs] at this
  omega

theorem encStr_ascii (v : Str) : ∀ c ∈ encStr v, c.toNat < 128 :=
  encodeChunks_ascii (utf8Encode v)

/-! ## Lemmas on rows and the masking loop -/

/-- Effect of one occurrence of a field in the loop of lines 49–51 on that
field's value: empty values are skipped, non-empty ones encoded. -/
def maskVal (v : Str) : Str := if v = [] then v else encStr v

theorem dictGet?_dictSet_self (k : Str) (v : Option Str) (d : Cells) :
    dictGet? k (dictSet k v d) = some v := by
  induction d with
  | nil =>
    simp only [dictSet, dictGet?]
    rw [List.find?_cons_of_pos _ (by simp)]
    rfl
  | cons p d ih =>
    by_cases h : p.1 = k
    · simp only [dictSet, if_pos h, dictGet?]
      rw [List.find?_cons_of_pos _ (by simp)]
      rfl
    · simp only [dictSet, if_neg h, dictGet?]
      rw [List.find?_cons_of_neg _ (by simp [h])]
      simpa [dictGet?] using ih

theorem dictGet?_dictSet_ne (k k' : Str) (hne : k' ≠ k) (v : Option Str) (d : Cells) :
    dictGet? k (dictSet k' v d) = dictGet? k d := by
  induction d with
  | nil =>
    simp only [dictSet, dictGet?]
    rw [List.find?_cons_of_neg _ (by simp [hne])]
  | cons p d ih =>
    by_cases h : p.1 = k'
    · simp only [dictSet, if_pos h, dictGet?]
      rw [List.find?_cons_of_neg _ (by simp [hne]),
        List.find?_cons_of_neg _ (by simp [h, hne])]
    · simp only [dictSet, if_neg h, dictGet?]
      by_cases h2 : p.1 = k
      · rw [List.find?_cons_of_pos _ (by simp [h2]), List.find?_cons_of_pos _ (by simp [h2])]
      · rw [List.find?_cons_of_neg _ (by simp [h2]), List.find?_cons_of_neg _ (by simp [h2])]
        simpa [dictGet?] using ih

theorem applyField_extra (r : PyRow) (g : Str) : (applyField r g).extra = r.extra := by
  unfold applyField
  split
  · split <;> rfl
  · rfl

theorem applyField_eq_some (r : PyRow) (g v : Str) (hv : dictGet? g r.cells = some (some v)) :
    applyField r g =
      if v = [] then r else { r with cells := dictSet g (some (encStr v)) r.cells } := by
  unfold applyField
  rw [hv]

theorem applyField_eq_someNone (r : PyRow) (g : Str) (hv : dictGet? g r.cells = some none) :
    applyField r g = r := by
  unfold applyField
  rw [hv]

theorem applyField_eq_none (r : PyRow) (g : Str) (hv : dictGet? g r.cells = none) :
    applyField r g = r := by
  unfold applyField
  rw [hv]

theorem applyPii_extra (pii : List Str) (r : PyRow) : (applyPii pii r).extra = r.extra := by
  induction pii generalizing r with
  | nil => rfl
  | cons g t ih =>
    show (applyPii t (applyField r g)).extra = r.extra
    rw [ih, applyField_extra]

theorem applyField_get_ne (r : PyRow) (g f : Str) (hne : g ≠ f) :
    dictGet? f (applyField r g).cells = dictGet? f r.cells := by
  unfold applyField
  split
  · split
    · rfl
    · simp only
      rw [dictGet?_dictSet_ne f g hne]
  · rfl

theorem applyPii_get_some (pii : List Str) (r : PyRow) (f v : Str)
    (hv : dictGet? f r.cells = some (some v)) :
    dictGet? f (applyPii pii r).cells = some (some (maskVal^[pii.count f] v)) := by
  induction pii generalizing r v with
  | nil => simpa [applyPii] using hv
  | cons g t ih =>
    show dictGet? f (applyPii t (applyField r g)).cells = _
    by_cases hg : g = f
    · subst hg
      rw [List.count_cons_self, applyField_eq_some r g v hv]
      by_cases hnil : v = []
      · rw [if_pos hnil, ih r v hv, Function.iterate_succ_apply,
          show maskVal v = v by rw [maskVal, if_pos hnil]]
      · rw [if_neg hnil,
          ih _ (encStr v) (dictGet?_dictSet_self g (some (encStr v)) r.cells),
          Function.iterate_succ_apply,
          show maskVal v = encStr v by rw [maskVal, if_neg hnil]]
    · rw [List.count_cons_of_ne (fun h => hg h.symm)]
      exact ih (applyField r g) v ((applyField_get_ne r g f hg) ▸ hv)

theorem applyPii_get_someNone (pii : List Str) (r : PyRow) (f : Str)
    (hv : dictGet? f r.cells = some none) :
    dictGet? f (applyPii pii r).cells = some none := by
  induction pii generalizing r with
  | nil => simpa [applyPii] using hv
  | cons g t ih =>
    show dictGet? f (applyPii t (applyField r g)).cells = _
    by_cases hg : g = f
    · subst hg
      rw [applyField_eq_someNone r g hv]
      exact ih r hv
    · exact ih (applyField r g) ((applyField_get_ne r g f hg) ▸ hv)

theorem applyPii_get_none (pii : List Str) (r : PyRow) (f : Str)
    (hv : dictGet? f r.cells = none) :
    dictGet? f (applyPii pii r).cells = none := by
  induction pii generalizing r with
  | nil => simpa [applyPii] using hv
  | cons g t ih =>
    show dictGet? f (applyPii t (applyField r g)).cells = _
    by_cases hg : g = f
    · subst hg
      rw [applyField_eq_none r g hv]
      exact ih r hv
    · exact ih (applyField r g) ((applyField_get_ne r g f hg) ▸ hv)

theorem maskVal_ne_nil (v : Str) (h : v ≠ []) : maskVal v ≠ [] := by
  rw [maskVal, if_neg h]
  exact encStr_ne_nil v h

theorem maskVal_length_lt (v : Str) (h : v ≠ []) : v.length < (maskVal v).length := by
  rw [maskVal, if_neg h]
  exact encStr_length_gt v h

theorem iterate_maskVal_ne_nil (k : Nat) (v : Str) (h : v ≠ []) : maskVal^[k] v ≠ [] := by
  induction k generalizing v with
  | zero => simpa
  | succ k ih =>
    rw [Function.iterate_succ_apply]
    exact ih (maskVal v) (maskVal_ne_nil v h)

theorem iterate_maskVal_length_lt (k : Nat) (v : Str) (h : v ≠ []) :
    v.length < (maskVal^[k + 1] v).length := by
  induction k generalizing v with
  | zero => simpa using maskVal_length_lt v h
  | succ k ih =>
    rw [Function.iterate_succ_apply]
    have h1 := maskVal_length_lt v h
    have h2 := ih (maskVal v) (maskVal_ne_nil v h)
    omega

theorem iterate_maskVal_ne_self (k : Nat) (v : Str) (h : v ≠ []) (hk : 0 < k) :
    maskVal^[k] v ≠ v := by
  intro habs
  obtain ⟨k', rfl⟩ : ∃ k', k = k' + 1 := ⟨k - 1, by omega⟩
  have := iterate_maskVal_length_lt k' v h
  rw [habs] at this
  omega

theorem count_eq_one_of_nodup_mem (l : List Str) (f : Str) (h : l.Nodup) (hm : f ∈ l) :
    l.count f = 1 := by
  induction l with
  | nil => simp at hm
  | cons b t ih =>
    rcases List.nodup_cons.mp h with ⟨hb, ht⟩
    rcases List.mem_cons.mp hm with rfl | hm'
    · rw [List.count_cons_self]
      have : t.count f = 0 := List.count_eq_zero.mpr hb
      omega
    · have hfb : f ≠ b := by rintro rfl; exact hb hm'
      rw [List.count_cons_of_ne hfb, ih ht hm']

theorem count_pos_of_mem (l : List Str) (f : Str) (hm : f ∈ l) : 0 < l.count f := by
  have : ¬l.count f = 0 := fun h0 => (List.count_eq_zero.mp h0) hm
  omega

/-! ## Claims -/

/-- C1: for every field name `f` in the parsed FieldSpec (a set of field
names, hence duplicate-free) and every row whose value `v` at column `f` is a
non-empty string, the masking loop replaces `v` by the ASCII-safe encoding
`encStr v` of the UTF-8 bytes of `v`, and decoding the encoded value in the
output row at column `f` recovers exactly `v`. -/
theorem C1_mask_roundtrip (pii : List Str) (f v : Str) (r : PyRow)
    (hnd : pii.Nodup) (hf : f ∈ pii)
    (hv : dictGet? f r.cells = some (some v)) (hne : v ≠ []) :
    dictGet? f (applyPii pii r).cells = some (some (encStr v)) ∧
      decStr (encStr v) = some v ∧ ∀ c ∈ encStr v, c.toNat < 128 := by
  have hc : pii.count f = 1 := count_eq_one_of_nodup_mem pii f hnd hf
  have h1 := applyPii_get_some pii r f v hv
  rw [hc] at h1
  refine ⟨?_, decStr_encStr v, encStr_ascii v⟩
  rw [h1]
  simp [maskVal, hne]

theorem C1_mask_roundtrip_witness :
    dictGet? "ssn".data
        (applyPii ["ssn".data]
          (mkRow ["id".data, "ssn".data] ["1".data, "123".data])).cells =
        some (some (encStr "123".data)) ∧
      decStr (encStr "123".data) = some "123".data ∧
      ∀ c ∈ encStr "123".data, c.toNat < 128 :=
  C1_mask_roundtrip ["ssn".data] "ssn".data "123".data
    (mkRow ["id".data, "ssn".data] ["1".data, "123".data])
    (by decide) (by decide) (by decide) (by decide)

/-- C2: a column not in the FieldSpec, or whose value in the row is the empty
string, or which is listed in the FieldSpec but carries no string value in
the row (the reader's `None` padding, or no entry at all), keeps exactly its
input value through the masking loop. -/
theorem C2_passthrough (pii : List Str) (f : Str) (r : PyRow)
    (h : f ∉ pii ∨ dictGet? f r.cells = some (some []) ∨
      dictGet? f r.cells = some none ∨ dictGet? f r.cells = none) :
    dictGet? f (applyPii pii r).cells = dictGet? f r.cells := by
  rcases h with h | h | h | h
  · have hc : pii.count f = 0 := List.count_eq_zero.mpr h
    rcases ho : dictGet? f r.cells with _ | ov
    · exact applyPii_get_none pii r f ho
    · rcases ov with _ | v
      · exact applyPii_get_someNone pii r f ho
      · rw [applyPii_get_some pii r f v ho, hc]
        simp
  · rw [applyPii_get_some pii r f [] h, h]
    simp [Function.iterate_fixed (show maskVal [] = [] from rfl)]
  · rw [applyPii_get_someNone pii r f h, h]
  · rw [applyPii_get_none pii r f h, h]

theorem C2_passthrough_witness :
    dictGet? "id".data
        (applyPii ["ssn".data]
          (mkRow ["id".data, "ssn".data] ["1".data, "123".data])).cells =
      dictGet? "id".data (mkRow ["id".data, "ssn".data] ["1".data, "123".data]).cells :=
  C2_passthrough ["ssn".data] "id".data
    (mkRow ["id".data, "ssn".data] ["1".data, "123".data]) (.inl (by decide))

/-- C7: the masking pass is not idempotent: applying the transformation of
lines 48–52 to its own output (same FieldSpec) encodes the already-encoded
value of every non-empty FieldSpec column a second time, so the twice-
transformed row differs from the once-transformed row at every such
column. -/
theorem C7_not_idempotent (pii : List Str) (f v : Str) (r : PyRow)
    (hf : f ∈ pii) (hv : dictGet? f r.cells = some (some v)) (hne : v ≠ []) :
    dictGet? f (applyPii pii (applyPii pii r)).cells ≠
      dictGet? f (applyPii pii r).cells := by
  have hk : 0 < pii.count f := count_pos_of_mem pii f hf
  have h1 := applyPii_get_some pii r f v hv
  have h2 := applyPii_get_some pii (applyPii pii r) f (maskVal^[pii.count f] v) h1
  rw [h1, h2]
  have hwne : maskVal^[pii.count f] v ≠ [] := iterate_maskVal_ne_nil _ v hne
  have := iterate_maskVal_ne_self (pii.count f) (maskVal^[pii.count f] v) hwne hk
  simp only [ne_eq, Option.some.injEq]
  exact fun habs => this habs

theorem C7_not_idempotent_witness :
    dictGet? "ssn".data
        (applyPii ["ssn".data]
          (applyPii ["ssn".data]
            (mkRow ["id".data, "ssn".data] ["1".data, "123".data]))).cells ≠
      dictGet? "ssn".data
        (applyPii ["ssn".data]
          (mkRow ["id".data, "ssn".data] ["1".data, "123".data])).cells :=
  C7_not_idempotent ["ssn".data] "ssn".data "123".data
    (mkRow ["id".data, "ssn".data] ["1".data, "123".data])
    (by decide) (by decide) (by decide)

/-- C10: the loop of lines 49–52 iterates over the parsed field list as
given; if a field name occurs twice, a non-empty value in that column is
encoded once per occurrence within the single run, and one decode of the
written value yields the once-encoded value, not the original — the
round-trip law fails for duplicated entries. -/
theorem C10_duplicate_entries (pii : List Str) (f v : Str) (r : PyRow)
    (hcount : pii.count f = 2)
    (hv : dictGet? f r.cells = some (some v)) (hne : v ≠ []) :
    dictGet? f (applyPii pii r).cells = some (some (encStr (encStr v))) ∧
      decStr (encStr (encStr v)) = some (encStr v) ∧ encStr v ≠ v := by
  have h1 := applyPii_get_some pii r f v hv
  rw [hcount] at h1
  have hiter : maskVal^[2] v = encStr (encStr v) := by
    have hv1 : maskVal v = encStr v := by rw [maskVal, if_neg hne]
    have hv2 : maskVal (encStr v) = encStr (encStr v) := by
      rw [maskVal, if_neg (encStr_ne_nil v hne)]
    simp [Function.iterate_succ_apply, hv1, hv2]
  rw [hiter] at h1
  exact ⟨h1, decStr_encStr (encStr v), encStr_ne_self v hne⟩

theorem C10_duplicate_entries_witness :
    dictGet? "ssn".data
        (applyPii ["ssn".data, "ssn".data]
          (mkRow ["id".data, "ssn".data] ["1".data, "123".data])).cells =
        some (some (encStr (encStr "123".data))) ∧
      decStr (encStr (encStr "123".data)) = some (encStr "123".data) ∧
      encStr "123".data ≠ "123".data :=
  C10_duplicate_entries ["ssn".data, "ssn".data] "ssn".data "123".data
    (mkRow ["id".data, "ssn".data] ["1".data, "123".data])
    (by decide) (by decide) (by decide)

theorem runPipeline_ok_inv (pii : List Str) (raw body : Str)
    (hb : runPipeline pii raw = .ok body) :
    ∃ l0 d fns rest parts,
      (pySplitlines raw).head? = some l0 ∧ sniffLine l0 = some d ∧
      csvParse d raw = .ok (fns :: rest) ∧
      mapME (processRow d fns pii) (rest.filter (fun r => !r.isEmpty)) = .ok parts ∧
      body = renderRecord d (fns.map some) ++ parts.flatten := by
  unfold runPipeline at hb
  rcases h0 : (pySplitlines raw).head? with _ | l0 <;> rw [h0] at hb <;> try dsimp only at hb
  · simp at hb
  rcases h1 : sniffLine l0 with _ | d <;> rw [h1] at hb <;> try dsimp only at hb
  · simp at hb
  rcases h2 : csvParse d raw with e2 | recs <;> rw [h2] at hb <;> try dsimp only at hb
  · simp at hb
  rcases recs with _ | ⟨fns, rest⟩ <;> try dsimp only at hb
  · simp at hb
  rcases h3 : mapME (processRow d fns pii) (rest.filter (fun r => !r.isEmpty)) with e3 | parts <;>
    rw [h3] at hb <;> try dsimp only at hb
  · simp at hb
  simp only [Except.ok.injEq] at hb
  exact ⟨l0, d, fns, rest, parts, rfl, h1, h2, h3, hb.symm⟩

/-- C8: the pipeline is deterministic: two runs on the same raw dataset text
with the same field list (and hence the same detected dialect) produce
identical results — the handler is a pure function of its inputs. -/
theorem C8_deterministic (k1 k2 : Str) (pii1 pii2 : List Str) (raw1 raw2 : Str)
    (hk : k1 = k2) (hp : pii1 = pii2) (hr : raw1 = raw2) :
    lambda_handler k1 pii1 raw1 = lambda_handler k2 pii2 raw2 := by
  rw [hk, hp, hr]

theorem C8_deterministic_witness :
    lambda_handler "m.json".data ["b".data] "a,b\n1,2\n".data =
      lambda_handler "m.json".data ["b".data] "a,b\n1,2\n".data :=
  C8_deterministic _ _ _ _ _ _ rfl rfl rfl

/-- C9: the orchestrator fails fast and atomically: when any stage errors the
invocation aborts with no store operation performed; when it succeeds the
store operation is performed exactly once, with the complete output (the
header followed by every data row transformed successfully). -/
theorem C9_fail_fast_atomic (k : Str) (pii : List Str) (raw : Str) :
    (∀ e, runPipeline pii raw = .error e → lambda_handler k pii raw = (.error e, [])) ∧
    (∀ body, runPipeline pii raw = .ok body →
      lambda_handler k pii raw = (.ok (), [(outputKey k, body)]) ∧
      ∃ d fns rest parts,
        csvParse d raw = .ok (fns :: rest) ∧
        mapME (processRow d fns pii) (rest.filter (fun r => !r.isEmpty)) = .ok parts ∧
        body = renderRecord d (fns.map some) ++ parts.flatten) := by
  constructor
  · intro e he
    unfold lambda_handler
    rw [he]
  · intro body hb
    refine ⟨by unfold lambda_handler; rw [hb], ?_⟩
    obtain ⟨l0, d, fns, rest, parts, _, _, h2, h3, hbody⟩ := runPipeline_ok_inv pii raw body hb
    exact ⟨d, fns, rest, parts, h2, h3, hbody⟩

theorem C9_fail_fast_atomic_witness :
    (lambda_handler "m.json".data [] "a,b\n1,2\n".data =
        (.ok (), [(outputKey "m.json".data, "a,b\r\n1,2\r\n".data)]) ∧
      ∃ d fns rest parts,
        csvParse d "a,b\n1,2\n".data = .ok (fns :: rest) ∧
        mapME (processRow d fns []) (rest.filter (fun r => !r.isEmpty)) = .ok parts ∧
        "a,b\r\n1,2\r\n".data = renderRecord d (fns.map some) ++ parts.flatten) :=
  (C9_fail_fast_atomic "m.json".data [] "a,b\n1,2\n".data).2
    "a,b\r\n1,2\r\n".data (by decide)

theorem processRow_error_eq (d : Char) (fns pii : List Str) (row : List Str) (e : PyErr)
    (h : processRow d fns pii row = .error e) : e = .valueErr := by
  unfold processRow at h
  split at h
  · cases h; rfl
  · cases h

theorem mapME_processRow_error (d : Char) (fns pii : List Str) (rows : List (List Str))
    (r : List Str) (hr : r ∈ rows) (hlong : fns.length < r.length) :
    mapME (processRow d fns pii) rows = .error .valueErr := by
  induction rows with
  | nil => simp at hr
  | cons a t ih =>
    rcases List.mem_cons.mp hr with rfl | hr'
    · have hpr : processRow d fns pii r = .error .valueErr := by
        unfold processRow
        rw [applyPii_extra]
        have hex : (mkRow fns r).extra = some (r.drop fns.length) := by
          simp [mkRow, hlong]
        rw [hex]
        rfl
      simp only [mapME]
      rw [hpr]
    · cases hpa : processRow d fns pii a with
      | error e =>
        have he := processRow_error_eq d fns pii a e hpa
        subst he
        simp only [mapME]
        rw [hpa]
      | ok s =>
        simp only [mapME]
        rw [hpa, ih hr']

/-- C3 counterexample: a data row with 2 fields against a 3-column header
does not make the invocation fail — the row is padded with an empty value
and the output is stored. -/
theorem C3_counterexample :
    lambda_handler "d_pii_fields.json".data [] "a,b,c\n1,2\n".data =
      (.ok (), [("tokenized/d_tokenized.csv".data, "a,b,c\r\n1,2,\r\n".data)]) := by
  decide

/-- C3 amended: the invocation fails (the `ValueError` that plays the role of
`MalformedRow`) only when a data row has MORE fields than the header; a data
row with fewer fields than the header (such as 2 against 3) is padded with
empty values and does not abort. -/
theorem C3_amended (k : Str) (pii : List Str) (raw l0 : Str) (d : Char)
    (fns : List Str) (rest : List (List Str)) (r : List Str)
    (h0 : (pySplitlines raw).head? = some l0)
    (h1 : sniffLine l0 = some d)
    (h2 : csvParse d raw = .ok (fns :: rest))
    (hr : r ∈ rest.filter (fun x => !x.isEmpty))
    (hlong : fns.length < r.length) :
    lambda_handler k pii raw = (.error .valueErr, []) := by
  unfold lambda_handler runPipeline
  rw [h0]
  try dsimp only
  rw [h1]
  try dsimp only
  rw [h2]
  try dsimp only
  rw [mapME_processRow_error d fns pii _ r hr hlong]

theorem C3_amended_witness :
    lambda_handler "m.json".data [] "a,b\n1,2,3\n".data = (.error .valueErr, []) :=
  C3_amended "m.json".data [] "a,b\n1,2,3\n".data "a,b".data ',' ["a".data, "b".data]
    [["1".data, "2".data, "3".data]] ["1".data, "2".data, "3".data]
    (by decide) (by decide) (by decide) (by decide) (by decide)

theorem piiSuffix_length : piiSuffix.length = 16 := by decide

theorem piiSuffix_noBorder :
    ∀ k, k < 16 → 0 < k → piiSuffix.drop k ≠ piiSuffix.take (16 - k) := by decide

theorem isPrefixOf_append_left (pat a b : Str) (hlen : pat.length ≤ a.length)
    (h : pat.isPrefixOf (a ++ b) = true) : pat.isPrefixOf a = true := by
  rw [List.isPrefixOf_iff_prefix] at h ⊢
  rw [List.prefix_iff_eq_take] at h ⊢
  rw [h]
  rw [List.take_append_eq_append_take]
  have h0 : pat.length - a.length = 0 := by omega
  rw [h0]
  simp

theorem stripGo_append_suffix :
    ∀ X, occursIn piiSuffix X = false → stripGo 0 (X ++ piiSuffix) = X := by
  intro X
  induction X with
  | nil => intro _; decide
  | cons c X ih =>
    intro hocc
    simp only [occursIn, Bool.or_eq_false_iff] at hocc
    obtain ⟨hpre, hocc'⟩ := hocc
    show stripGo 0 (c :: (X ++ piiSuffix)) = c :: X
    by_cases hp : piiSuffix.isPrefixOf (c :: X ++ piiSuffix) = true
    · exfalso
      by_cases hlen : piiSuffix.length ≤ (c :: X).length
      · have hin := isPrefixOf_append_left piiSuffix (c :: X) piiSuffix hlen hp
        rw [hpre] at hin
        cases hin
      · push_neg at hlen
        rw [piiSuffix_length] at hlen
        rw [List.isPrefixOf_iff_prefix] at hp
        obtain ⟨t, ht⟩ := hp
        have hk1 : 0 < (c :: X).length := by simp
        have hk2 : (c :: X).length < 16 := hlen
        have h1 : piiSuffix.drop (c :: X).length ++ t = piiSuffix := by
          have hd := congrArg (List.drop (c :: X).length) ht
          rw [List.drop_append_of_le_length (by rw [piiSuffix_length]; omega),
            List.drop_left] at hd
          exact hd
        have h2 : piiSuffix.drop (c :: X).length = piiSuffix.take (16 - (c :: X).length) := by
          have htk := congrArg (List.take (16 - (c :: X).length)) h1
          rw [List.take_left' (by rw [List.length_drop, piiSuffix_length])] at htk
          exact htk
        exact piiSuffix_noBorder (c :: X).length hk2 hk1 h2
    · have hstep : stripGo 0 (c :: (X ++ piiSuffix)) = c :: stripGo 0 (X ++ piiSuffix) := by
        simp only [stripGo]
        rw [if_neg (by simpa using hp)]
      rw [hstep, ih hocc']

/-- C4 counterexample: a triggering metadata identifier that does not end
with `_pii_fields.json` does not make the invocation fail — the resolver
keeps the base name as-is and the pipeline runs to completion. -/
theorem C4_counterexample :
    lambda_handler "meta.json".data [] "a,b\n1,2\n".data =
      (.ok (), [("tokenized/meta.json_tokenized.csv".data, "a,b\r\n1,2\r\n".data)]) := by
  decide

/-- C4 amended: the Path Resolver never fails: it removes every occurrence
of `_pii_fields.json` from the base name. When the identifier does end with
the suffix (and the suffix occurs nowhere else in the base name), the
raw-dataset identifier is `raw/X.csv` and the output identifier is
`tokenized/X_tokenized.csv`; an identifier without the suffix is processed
all the same with `X` the whole base name. -/
theorem C4_amended (mk X : Str) (hb : basename mk = X ++ piiSuffix)
    (hocc : occursIn piiSuffix X = false) :
    rawKey mk = "raw/".data ++ X ++ ".csv".data ∧
      outputKey mk = "tokenized/".data ++ X ++ "_tokenized.csv".data := by
  unfold rawKey outputKey stripPii
  rw [hb, stripGo_append_suffix X hocc]
  exact ⟨rfl, rfl⟩

theorem C4_amended_witness :
    rawKey "meta/customers_pii_fields.json".data =
        "raw/".data ++ "customers".data ++ ".csv".data ∧
      outputKey "meta/customers_pii_fields.json".data =
        "tokenized/".data ++ "customers".data ++ "_tokenized.csv".data :=
  C4_amended _ "customers".data (by decide) (by decide)

theorem char_toNat_ofNat_lt127 {n : Nat} (h : n < 127) : (Char.ofNat n).toNat = n := by
  simp [Char.ofNat, show n.isValidChar from Or.inl (by omega), Char.ofNatAux, Char.toNat,
    UInt32.toNat]

theorem count_pos_of_mem_char (l : List Char) (c : Char) (hm : c ∈ l) : 0 < l.count c := by
  have : ¬l.count c = 0 := fun h0 => (List.count_eq_zero.mp h0) hm
  omega

/-- C6 counterexample: on the dataset `a,b\nxxxxx` no character has the same
positive occurrence count on the two sampled lines — by the claim, detection
should fail with `DialectDetectionFailed` — yet the invocation succeeds:
only the first line is inspected, `,` is chosen, and output is stored. -/
theorem C6_counterexample :
    (∀ ch : Char, ¬(0 < List.count ch "a,b".data ∧
        List.count ch "a,b".data = List.count ch "xxxxx".data)) ∧
      lambda_handler "m.json".data [] "a,b\nxxxxx".data =
        (.ok (), [("tokenized/m.json_tokenized.csv".data, "a,b\r\nxxxxx,\r\n".data)]) := by
  constructor
  · rintro ch ⟨hpos, heq⟩
    have hmem : ch ∈ "a,b".data := by
      by_contra hnm
      rw [List.count_eq_zero.mpr hnm] at hpos
      omega
    simp only [String.data] at hmem
    rcases (by simpa using hmem : ch = 'a' ∨ ch = ',' ∨ ch = 'b') with rfl | rfl | rfl <;>
      exact absurd heq (by decide)
  · decide

/-- C6 amended: dialect detection inspects only the first line: it fails
(`csv.Error`) exactly when that line contains no ASCII character of code
below 127 (in particular when the first line is empty); an empty dataset
fails one step earlier with `IndexError` at `splitlines()[0]`. Column-count
consistency over two or more sampled lines is never checked. -/
theorem C6_amended :
    (∀ l : Str, sniffLine l = none ↔ ∀ c ∈ l, 127 ≤ c.toNat) ∧
      (∀ (k : Str) (pii : List Str), lambda_handler k pii [] = (.error .indexErr, [])) := by
  constructor
  · intro l
    constructor
    · intro hnone c hc
      by_contra hlt
      push_neg at hlt
      have hmem : c ∈ asciiCandidates l := by
        unfold asciiCandidates
        rw [List.mem_filterMap]
        refine ⟨c.toNat, List.mem_range.mpr hlt, ?_⟩
        rw [Char.ofNat_toNat, if_pos (count_pos_of_mem_char l c hc)]
      cases hca : asciiCandidates l with
      | nil => rw [hca] at hmem; cases hmem
      | cons c1 cs =>
        unfold sniffLine at hnone
        rw [hca] at hnone
        cases cs with
        | nil => dsimp only at hnone; cases hnone
        | cons c2 cs' =>
          dsimp only at hnone
          rcases hf : preferredDelims.find? (fun p => (c1 :: c2 :: cs').contains p) with _ | p <;>
            rw [hf] at hnone <;> dsimp only at hnone <;> cases hnone
    · intro hall
      have hca : asciiCandidates l = [] := by
        unfold asciiCandidates
        rw [List.filterMap_eq_nil_iff]
        intro n hn
        rw [if_neg]
        intro hpos
        have hmem : Char.ofNat n ∈ l := by
          by_contra hnm
          rw [List.count_eq_zero.mpr hnm] at hpos
          omega
        have := hall _ hmem
        rw [char_toNat_ofNat_lt127 (List.mem_range.mp hn)] at this
        have := List.mem_range.mp hn
        omega
      unfold sniffLine
      rw [hca]
  · intro k pii
    rfl

theorem splitOnChar_ne_nil (d : Char) (s : Str) : splitOnChar d s ≠ [] := by
  cases s with
  | nil => simp [splitOnChar]
  | cons c s =>
    simp only [splitOnChar]
    rcases h : splitOnChar d s with _ | ⟨f, fs⟩ <;> dsimp only
    · simp
    · by_cases hcd : c = d <;> simp [hcd]

theorem splitOnChar_no_delim (d : Char) (s : Str) : ∀ f ∈ splitOnChar d s, d ∉ f := by
  induction s with
  | nil =>
    intro f hf
    simp only [splitOnChar, List.mem_singleton] at hf
    subst hf
    simp
  | cons c s ih =>
    intro f hf
    simp only [splitOnChar] at hf
    rcases h : splitOnChar d s with _ | ⟨g, gs⟩
    · exact absurd h (splitOnChar_ne_nil d s)
    · rw [h] at hf
      dsimp only at hf
      by_cases hcd : c = d
      · rw [if_pos hcd] at hf
        rcases List.mem_cons.mp hf with rfl | hf'
        · simp
        · exact ih f (h ▸ hf')
      · rw [if_neg hcd] at hf
        rcases List.mem_cons.mp hf with rfl | hf'
        · intro habs
          rcases List.mem_cons.mp habs with rfl | habs'
          · exact hcd rfl
          · exact ih g (h ▸ List.mem_cons_self g gs) habs'
        · exact ih f (h ▸ List.mem_cons_of_mem g hf')

theorem splitOnChar_sub (d : Char) (s : Str) :
    ∀ f ∈ splitOnChar d s, ∀ x ∈ f, x ∈ s := by
  induction s with
  | nil =>
    intro f hf x hx
    simp only [splitOnChar, List.mem_singleton] at hf
    subst hf
    simp at hx
  | cons c s ih =>
    intro f hf x hx
    simp only [splitOnChar] at hf
    rcases h : splitOnChar d s with _ | ⟨g, gs⟩
    · exact absurd h (splitOnChar_ne_nil d s)
    · rw [h] at hf
      dsimp only at hf
      by_cases hcd : c = d
      · rw [if_pos hcd] at hf
        rcases List.mem_cons.mp hf with rfl | hf'
        · simp at hx
        · exact List.mem_cons_of_mem c (ih f (h ▸ hf') x hx)
      · rw [if_neg hcd] at hf
        rcases List.mem_cons.mp hf with rfl | hf'
        · rcases List.mem_cons.mp hx with rfl | hx'
          · exact List.mem_cons_self x s
          · exact List.mem_cons_of_mem c (ih g (h ▸ List.mem_cons_self g gs) x hx')
        · exact List.mem_cons_of_mem c (ih f (h ▸ List.mem_cons_of_mem g hf') x hx)

theorem joinSep_cons (sep : Str) (a : Str) (l : List Str) :
    joinSep sep (a :: l) = a ++ (if l = [] then [] else sep ++ joinSep sep l) := by
  cases l <;> simp [joinSep]

theorem joinSep_splitOnChar (d : Char) (s : Str) : joinSep [d] (splitOnChar d s) = s := by
  induction s with
  | nil => rfl
  | cons c s ih =>
    simp only [splitOnChar]
    rcases h : splitOnChar d s with _ | ⟨f, fs⟩ <;> dsimp only
    · exact absurd h (splitOnChar_ne_nil d s)
    · rw [h] at ih
      by_cases hcd : c = d
      · rw [if_pos hcd]
        show joinSep [d] ([] :: f :: fs) = c :: s
        rw [show joinSep [d] ([] :: f :: fs) = [] ++ [d] ++ joinSep [d] (f :: fs) from rfl, ih,
          hcd]
        simp
      · rw [if_neg hcd]
        rw [joinSep_cons] at ih ⊢
        rw [← ih]
        simp

theorem splitOnChar_ne_single_nil (d : Char) (c : Char) (s : Str) :
    splitOnChar d (c :: s) ≠ [[]] := by
  simp only [splitOnChar]
  rcases h : splitOnChar d s with _ | ⟨f, fs⟩ <;> dsimp only
  · simp
  · by_cases hcd : c = d <;> simp [hcd]

theorem renderRecord_plain (d : Char) (l0 : Str) (hne : l0 ≠ [])
    (hq : ∀ c ∈ l0, c ≠ '"' ∧ pyIsLineBreak c = false) :
    renderRecord d ((splitOnChar d l0).map some) = l0 ++ ['\r', '\n'] := by
  have hchars : ∀ c ∈ l0, c ≠ '"' ∧ c ≠ '\r' ∧ c ≠ '\n' := by
    intro c hc
    obtain ⟨h1, h2⟩ := hq c hc
    simp only [pyIsLineBreak, decide_eq_false_iff_not, not_or] at h2
    exact ⟨h1, h2.2.1, h2.1⟩
  have hflds : ∀ f ∈ splitOnChar d l0, renderField d (some f) = f := by
    intro f hf
    show (if needsQuote d f then
        '"' :: (f.map (fun c => if c = '"' then ['"', '"'] else [c])).flatten ++ ['"']
      else f) = f
    rw [if_neg]
    intro habs
    rw [needsQuote, List.any_eq_true] at habs
    obtain ⟨c, hcf, hcp⟩ := habs
    have hcl : c ∈ l0 := splitOnChar_sub d l0 f hf c hcf
    have hnd : c ≠ d := fun habs2 => splitOnChar_no_delim d l0 f hf (habs2 ▸ hcf)
    obtain ⟨hq1, hr1, hn1⟩ := hchars c hcl
    simp only [decide_eq_true_eq] at hcp
    rcases hcp with h | h | h | h
    · exact hnd h
    · exact hq1 h
    · exact hr1 h
    · exact hn1 h
  unfold renderRecord
  rw [if_neg]
  · rw [List.map_map,
      List.map_congr_left (g := id) (fun f hf => by simp [Function.comp, hflds f hf]),
      List.map_id, joinSep_splitOnChar]
  · rintro (habs | habs)
    · rcases hL : splitOnChar d l0 with _ | ⟨f, fs⟩
      · exact splitOnChar_ne_nil d l0 hL
      · rw [hL] at habs
        simp only [List.map_cons, List.cons.injEq, Option.some.injEq] at habs
        obtain ⟨rfl, habs2⟩ := habs
        have hfs : fs = [] := by
          cases fs with
          | nil => rfl
          | cons g gs => simp at habs2
        subst hfs
        cases l0 with
        | nil => exact hne rfl
        | cons c s => exact splitOnChar_ne_single_nil d c s hL
    · rcases hL : splitOnChar d l0 with _ | ⟨f, fs⟩
      · exact splitOnChar_ne_nil d l0 hL
      · rw [hL] at habs
        simp at habs

theorem pySplitlines_cons_plain (c : Char) (w : Str) (hc : pyIsLineBreak c = false) :
    pySplitlines (c :: w) =
      match pySplitlines w with
      | [] => [[c]]
      | l :: ls => (c :: l) :: ls := by
  have hcr : c ≠ '\r' := by
    intro habs
    rw [habs] at hc
    simp [pyIsLineBreak] at hc
  rw [pySplitlines.eq_def]
  split
  all_goals
    first
      | (rename_i hEq
         simp at hEq
         done)
      | (rename_i hEq
         injection hEq with h1 _
         exact absurd h1 hcr)
      | (rename_i hguard hEq
         injection hEq with h1 h2
         subst h1
         subst h2
         rw [if_neg (by simp [hc])])

theorem pySplitlines_prefix_nl (s t : Str) (h : ∀ c ∈ s, pyIsLineBreak c = false) :
    pySplitlines (s ++ '\n' :: t) = s :: pySplitlines t := by
  induction s with
  | nil => rfl
  | cons c s' ih =>
    rw [List.cons_append, pySplitlines_cons_plain c _ (h c (List.mem_cons_self c s')),
      ih (fun x hx => h x (List.mem_cons_of_mem c hx))]

theorem pySplitlines_prefix_crlf (s t : Str) (h : ∀ c ∈ s, pyIsLineBreak c = false) :
    pySplitlines (s ++ '\r' :: '\n' :: t) = s :: pySplitlines t := by
  induction s with
  | nil => rfl
  | cons c s' ih =>
    rw [List.cons_append, pySplitlines_cons_plain c _ (h c (List.mem_cons_self c s')),
      ih (fun x hx => h x (List.mem_cons_of_mem c hx))]

theorem asciiCandidates_sub (l : Str) : ∀ c ∈ asciiCandidates l, c ∈ l := by
  intro c hc
  unfold asciiCandidates at hc
  rw [List.mem_filterMap] at hc
  obtain ⟨n, _, heq⟩ := hc
  by_cases hpos : 0 < l.count (Char.ofNat n)
  · rw [if_pos hpos] at heq
    injection heq with heq
    subst heq
    by_contra hnm
    rw [List.count_eq_zero.mpr hnm] at hpos
    omega
  · rw [if_neg hpos] at heq
    cases heq

theorem maxCandidate_mem (l : Str) (cs : List Char) :
    ∀ acc : Char, maxCandidate l acc cs ∈ acc :: cs := by
  induction cs with
  | nil => intro acc; simp [maxCandidate]
  | cons b cs' ih =>
    intro acc
    have hstep : maxCandidate l acc (b :: cs') =
        maxCandidate l (if l.count acc < l.count b ∨
          (l.count acc = l.count b ∧ acc.toNat < b.toNat) then b else acc) cs' := rfl
    rw [hstep]
    rcases List.mem_cons.mp (ih (if l.count acc < l.count b ∨
        (l.count acc = l.count b ∧ acc.toNat < b.toNat) then b else acc)) with h' | h'
    · rw [h']
      by_cases hcond : l.count acc < l.count b ∨
          (l.count acc = l.count b ∧ acc.toNat < b.toNat)
      · rw [if_pos hcond]
        exact List.mem_cons_of_mem acc (List.mem_cons_self b cs')
      · rw [if_neg hcond]
        exact List.mem_cons_self acc _
    · exact List.mem_cons_of_mem acc (List.mem_cons_of_mem b h')

theorem sniffLine_mem (l : Str) (d : Char) (h : sniffLine l = some d) : d ∈ l := by
  unfold sniffLine at h
  rcases hca : asciiCandidates l with _ | ⟨c1, cs⟩ <;> rw [hca] at h <;> try dsimp only at h
  · cases h
  cases cs with
  | nil =>
    dsimp only at h
    injection h with h
    subst h
    exact asciiCandidates_sub l _ (by rw [hca]; exact List.mem_cons_self _ _)
  | cons c2 cs' =>
    dsimp only at h
    rcases hf : preferredDelims.find? (fun p => (c1 :: c2 :: cs').contains p) with _ | p <;>
      rw [hf] at h <;> dsimp only at h
    · injection h with h
      subst h
      exact asciiCandidates_sub l _ (by rw [hca]; exact maxCandidate_mem l (c2 :: cs') c1)
    · injection h with h
      subst h
      have hp := List.find?_some hf
      exact asciiCandidates_sub l _ (by rw [hca]; simpa using hp)

theorem csvGo_plain (d : Char) (rest : Str) (hd : d ≠ '\n') (s : Str)
    (h : ∀ c ∈ s, c ≠ '"' ∧ c ≠ '\r' ∧ c ≠ '\n') :
    (∀ rec, csvGo d (s ++ '\n' :: rest) .sf [] rec =
      (csvGo d rest .sr [] []).map (fun rs => (rec ++ splitOnChar d s) :: rs)) ∧
    (∀ fld rec, csvGo d (s ++ '\n' :: rest) .pf fld rec =
      (csvGo d rest .sr [] []).map (fun rs => (rec ++ consHead fld (splitOnChar d s)) :: rs)) := by
  induction s with
  | nil =>
    constructor
    · intro rec
      show csvGo d ('\n' :: rest) .sf [] rec = _
      simp only [csvGo]
      rw [if_neg (by decide), if_neg (fun habs => hd habs.symm)]
      simp [splitOnChar]
    · intro fld rec
      show csvGo d ('\n' :: rest) .pf fld rec = _
      simp only [csvGo]
      rw [if_neg (fun habs => hd habs.symm)]
      simp [consHead, splitOnChar]
  | cons c s' ih =>
    obtain ⟨hcq, hcr, hcn⟩ := h c (List.mem_cons_self c s')
    have hs' : ∀ x ∈ s', x ≠ '"' ∧ x ≠ '\r' ∧ x ≠ '\n' :=
      fun x hx => h x (List.mem_cons_of_mem c hx)
    obtain ⟨ihsf, ihpf⟩ := ih hs'
    obtain ⟨f, fs, hsplit⟩ : ∃ f fs, splitOnChar d s' = f :: fs := by
      rcases hh : splitOnChar d s' with _ | ⟨f, fs⟩
      · exact absurd hh (splitOnChar_ne_nil d s')
      · exact ⟨f, fs, rfl⟩
    have hsplitc : splitOnChar d (c :: s') =
        if c = d then [] :: f :: fs else (c :: f) :: fs := by
      simp only [splitOnChar]
      rw [hsplit]
    constructor
    · intro rec
      show csvGo d (c :: (s' ++ '\n' :: rest)) .sf [] rec = _
      simp only [csvGo]
      rw [if_neg hcq]
      by_cases hcd : c = d
      · rw [if_pos hcd, ihsf (rec ++ [[]]), hsplitc, if_pos hcd]
        simp [hsplit]
      · rw [if_neg hcd, if_neg hcn, if_neg hcr, ihpf [c] rec, hsplitc, if_neg hcd, hsplit]
        simp [consHead]
    · intro fld rec
      show csvGo d (c :: (s' ++ '\n' :: rest)) .pf fld rec = _
      simp only [csvGo]
      by_cases hcd : c = d
      · rw [if_pos hcd, ihsf (rec ++ [fld]), hsplitc, if_pos hcd]
        simp [consHead, hsplit]
      · rw [if_neg hcd, if_neg hcn, if_neg hcr, ihpf (fld ++ [c]) rec, hsplitc, if_neg hcd,
          hsplit]
        simp [consHead]

theorem csvParse_plain_header (d : Char) (l0 rest : Str) (hne : l0 ≠ [])
    (hd : d ≠ '\n')
    (h : ∀ c ∈ l0, c ≠ '"' ∧ c ≠ '\r' ∧ c ≠ '\n') :
    csvParse d (l0 ++ '\n' :: rest) =
      (csvGo d rest .sr [] []).map (fun rs => splitOnChar d l0 :: rs) := by
  rcases l0 with _ | ⟨c, l0'⟩
  · exact absurd rfl hne
  obtain ⟨hcq, hcr, hcn⟩ := h c (List.mem_cons_self c l0')
  have hs' : ∀ x ∈ l0', x ≠ '"' ∧ x ≠ '\r' ∧ x ≠ '\n' :=
    fun x hx => h x (List.mem_cons_of_mem c hx)
  obtain ⟨ihsf, ihpf⟩ := csvGo_plain d rest hd l0' hs'
  obtain ⟨f, fs, hsplit⟩ : ∃ f fs, splitOnChar d l0' = f :: fs := by
    rcases hh : splitOnChar d l0' with _ | ⟨f, fs⟩
    · exact absurd hh (splitOnChar_ne_nil d l0')
    · exact ⟨f, fs, rfl⟩
  have hsplitc : splitOnChar d (c :: l0') =
      if c = d then [] :: f :: fs else (c :: f) :: fs := by
    simp only [splitOnChar]
    rw [hsplit]
  show csvGo d (c :: (l0' ++ '\n' :: rest)) .sr [] [] = _
  simp only [csvGo]
  rw [if_neg hcn, if_neg hcr, if_neg hcq]
  by_cases hcd : c = d
  · rw [if_pos hcd, ihsf [[]], hsplitc, if_pos hcd]
    simp [hsplit]
  · rw [if_neg hcd, ihpf [c] [], hsplitc, if_neg hcd, hsplit]
    simp [consHead]

/-- C5 counterexample: the output header row is not byte-identical to the
input header row in general: for the raw dataset `"a",b\n1,2\n` (quoted
first header field) the invocation succeeds and the stored output's first
line is `a,b`, not `"a",b`. -/
theorem C5_counterexample :
    lambda_handler "m.json".data [] "\"a\",b\n1,2\n".data =
        (.ok (), [("tokenized/m.json_tokenized.csv".data, "a,b\r\n1,2\r\n".data)]) ∧
      (pySplitlines "a,b\r\n1,2\r\n".data).head? ≠
        (pySplitlines "\"a\",b\n1,2\n".data).head? := by
  constructor
  · decide
  · decide

/-- C5 amended: the writer re-renders the header row, so byte-identity holds
exactly for headers reproduced verbatim: when the first line of the raw
dataset is non-empty and contains no quote character and no line-break
character, the first line of the stored output equals the first line of the
input; headers with quoted fields are rewritten. -/
theorem C5_amended (pii : List Str) (l0 t body : Str)
    (hne : l0 ≠ [])
    (hplain : ∀ c ∈ l0, c ≠ '"' ∧ pyIsLineBreak c = false)
    (hok : runPipeline pii (l0 ++ '\n' :: t) = .ok body) :
    (pySplitlines (l0 ++ '\n' :: t)).head? = some l0 ∧
      (pySplitlines body).head? = some l0 := by
  have hbreak : ∀ c ∈ l0, pyIsLineBreak c = false := fun c hc => (hplain c hc).2
  have hin : pySplitlines (l0 ++ '\n' :: t) = l0 :: pySplitlines t :=
    pySplitlines_prefix_nl l0 t hbreak
  refine ⟨by rw [hin]; rfl, ?_⟩
  obtain ⟨l0', d, fns, rest, parts, h0, h1, h2, h3, hbody⟩ :=
    runPipeline_ok_inv pii (l0 ++ '\n' :: t) body hok
  have hl0 : l0' = l0 := by
    rw [hin] at h0
    simp only [List.head?_cons, Option.some.injEq] at h0
    exact h0.symm
  rw [hl0] at h1
  have hdmem : d ∈ l0 := sniffLine_mem l0 d h1
  have hdn : d ≠ '\n' := by
    have hb := (hplain d hdmem).2
    intro habs
    rw [habs] at hb
    simp [pyIsLineBreak] at hb
  have hchars : ∀ c ∈ l0, c ≠ '"' ∧ c ≠ '\r' ∧ c ≠ '\n' := by
    intro c hc
    obtain ⟨hq1, hb1⟩ := hplain c hc
    simp only [pyIsLineBreak, decide_eq_false_iff_not, not_or] at hb1
    exact ⟨hq1, hb1.2.1, hb1.1⟩
  have hparse := csvParse_plain_header d l0 t hne hdn hchars
  rw [h2] at hparse
  rcases hgo : csvGo d t .sr [] [] with e | rs <;> rw [hgo] at hparse
  · simp [Except.map] at hparse
  · simp only [Except.map, Except.ok.injEq, List.cons.injEq] at hparse
    obtain ⟨hfns, hrest⟩ := hparse
    rw [hbody, hfns, renderRecord_plain d l0 hne hplain]
    have hassoc : (l0 ++ ['\r', '\n']) ++ parts.flatten =
        l0 ++ '\r' :: '\n' :: parts.flatten := by simp
    rw [hassoc, pySplitlines_prefix_crlf l0 _ hbreak]
    rfl

theorem C5_amended_witness :
    (pySplitlines ("a,b".data ++ '\n' :: "1,2\n".data)).head? = some "a,b".data ∧
      (pySplitlines "a,b\r\n1,2\r\n".data).head? = some "a,b".data :=
  C5_amended [] "a,b".data "1,2\n".data "a,b\r\n1,2\r\n".data
    (by decide) (by decide) (by decide)
